import Mathlib

/-!
Shallow embedding of the core of `languagetool-lsp` (a Rust LSP server that
incrementally re-checks prose via the LanguageTool HTTP API) and proofs about
the claims of its specification.

Modelling conventions:
* Rust `String`/`&str` buffer text is modelled as `List Char` (Lean `Char` is a
  Unicode scalar value, exactly like Rust `char`).  Byte offsets are recovered
  through the UTF-8 size of each character, UTF-16 columns through the UTF-16
  size, so the dual coordinate systems of the source are modelled exactly.
* Opaque metadata strings (categories, rule ids, messages) are Lean `String`s.
* `usize` is `Nat`.  The casts `x as isize` / `y as usize` in the source are
  two's-complement on 64 bits; where they occur we model them with
  `Int.emod _ (2 ^ 64)` (`asUsize`), which agrees with the source whenever the
  intermediate `isize` addition does not overflow `i64`.
* Byte-slicing a Rust `&str` panics on a non-character boundary; the total
  functions `takeBytes`/`dropBytes` stop at the previous boundary instead.
  All theorems use them only at character boundaries, where they agree with
  the source.
* The external HTTP check call is modelled by an oracle argument
  `AnnotatedText → Nat → Except String (List Match)`; everything after the
  transport (translation, filtering, reconciliation) is embedded from source.
-/

/-- UTF-8 byte length of one character, as Rust `char::len_utf8`. -/
def charBytes (c : Char) : Nat :=
  if c.toNat < 0x80 then 1
  else if c.toNat < 0x800 then 2
  else if c.toNat < 0x10000 then 3
  else 4

/-- UTF-16 code-unit length of one character, as Rust `char::len_utf16`. -/
def charUtf16 (c : Char) : Nat :=
  if c.toNat < 0x10000 then 1 else 2

/-- Byte length of a string (Rust `str::len`). -/
def strBytes (l : List Char) : Nat := (l.map charBytes).sum

/-- UTF-16 length of a string (Rust `s.encode_utf16().count()`). -/
def strUtf16 (l : List Char) : Nat := (l.map charUtf16).sum

/-- Unicode `White_Space` property, as Rust `char::is_whitespace`. -/
def isWs (c : Char) : Bool :=
  let n := c.toNat
  (0x9 ≤ n && n ≤ 0xD) || n = 0x20 || n = 0x85 || n = 0xA0 || n = 0x1680 ||
    (0x2000 ≤ n && n ≤ 0x200A) || n = 0x2028 || n = 0x2029 || n = 0x202F ||
    n = 0x205F || n = 0x3000

/-- Whether `s.trim().is_empty()` holds in the source: every char is whitespace. -/
def blank (l : List Char) : Bool := l.all isWs

/-- Rust `str::trim_end`: drop trailing whitespace. -/
def trimEnd (l : List Char) : List Char := (l.reverse.dropWhile isWs).reverse

/-- Dual byte/UTF-16 length pair (`Size` in `src/source.rs`). -/
structure Size where
  byte : Nat
  utf16 : Nat
deriving DecidableEq, Repr

instance : Add Size := ⟨fun a b => ⟨a.byte + b.byte, a.utf16 + b.utf16⟩⟩

/-- Size of a string slice (`Size::new` in `src/source.rs`). -/
def Size.new (l : List Char) : Size := ⟨strBytes l, strUtf16 l⟩

/-- Size zero (`Size::zero`). -/
def Size.zero : Size := ⟨0, 0⟩

/-- Split a text into its lines, each line keeping its terminating newline,
with the final (possibly empty) remainder always included.  This reproduces
the line table geometry of `SourceFile::compute_lines` in `src/source.rs`:
there the pointer offset of each of `text.lines().skip(1)` is exactly the
byte position just after a `'\x0a'`, the remainder `text[last..]` is always
pushed, and an extra empty trailing line is pushed when the text ends with a
newline — which is precisely the empty remainder produced here. -/
def splitLines : List Char → List (List Char)
  | [] => [[]]
  | c :: cs =>
    if c = '\n' then [c] :: splitLines cs
    else
      match splitLines cs with
      | [] => [[c]]
      | s :: ss => (c :: s) :: ss

/-- Build the `(start, end)` size table from the line segments, accumulating
sizes exactly as `compute_lines` accumulates `last`. -/
def mkLines (acc : Size) : List (List Char) → List (Size × Size)
  | [] => []
  | s :: ss => (acc, acc + Size.new s) :: mkLines (acc + Size.new s) ss

/-- The positioned buffer (`SourceFile` in `src/source.rs`). -/
structure SourceFile where
  text : List Char
  lines : List (Size × Size)
deriving DecidableEq, Repr

/-- Constructor `SourceFile::new`: store the text and compute the line table. -/
def SourceFile.new (text : List Char) : SourceFile :=
  ⟨text, mkLines Size.zero (splitLines text)⟩

/-- Drop the first `n` bytes of a string (the lower end of a Rust byte-range
slice).  On a non-boundary `n` it stops at the previous boundary, where the
source would panic; all uses in the development are at boundaries. -/
def dropBytes : List Char → Nat → List Char
  | l, 0 => l
  | [], _ + 1 => []
  | c :: cs, n + 1 =>
    if charBytes c ≤ n + 1 then dropBytes cs (n + 1 - charBytes c) else c :: cs

/-- Take the first `n` bytes of a string (the upper end of a Rust byte-range
slice); same boundary convention as `dropBytes`. -/
def takeBytes : List Char → Nat → List Char
  | _, 0 => []
  | [], _ + 1 => []
  | c :: cs, n + 1 =>
    if charBytes c ≤ n + 1 then c :: takeBytes cs (n + 1 - charBytes c) else []

/-- The Rust slice `&text[a..b]` (for `a`, `b` on character boundaries). -/
def sliceBytes (l : List Char) (a b : Nat) : List Char :=
  takeBytes (dropBytes l a) (b - a)

/-- `utf16_to_byte` from `src/util.rs`: walk the characters, converting a
UTF-16 offset into a byte offset.  The loop there stops once the accumulated
UTF-16 count reaches the requested position; here the remaining count is
passed down (saturating at 0 like the loop's `>=` test). -/
def utf16_to_byte : List Char → Nat → Nat
  | _, 0 => 0
  | [], _ + 1 => 0
  | c :: cs, n + 1 => charBytes c + utf16_to_byte cs (n + 1 - charUtf16 c)

/-- An editor line/UTF-16-column position (`lsp_types::Position`). -/
structure Position where
  line : Nat
  character : Nat
deriving DecidableEq, Repr

/-- `SourceFile::line_range`: the sizes spanning lines `[a, b)` together with
the corresponding text slice.  The source computes `line_end(range.end - 1)`;
for `b = 0` the Nat subtraction here truncates where the source would
underflow, a case no caller reaches. -/
def SourceFile.line_range (f : SourceFile) (a b : Nat) :
    Option ((Size × Size) × List Char) :=
  match f.lines[a]?, f.lines[b - 1]? with
  | some s, some e => some ((s.1, e.2), sliceBytes f.text s.1.byte e.2.byte)
  | _, _ => none

/-- `SourceFile::to_offset`: convert a line/UTF-16-column position to a byte
offset. -/
def SourceFile.to_offset (f : SourceFile) (pos : Position) : Option Nat :=
  match f.lines[pos.line]? with
  | none => none
  | some (s, e) =>
    some (s.byte + utf16_to_byte (sliceBytes f.text s.byte e.byte) pos.character)

/-- The `iter().enumerate().find(..)` search of `SourceFile::to_position`:
first line (with its index) whose half-open byte range contains `offset`. -/
def findLine (offset : Nat) : List (Size × Size) → Nat → Option (Nat × (Size × Size))
  | [], _ => none
  | se :: rest, i =>
    if se.1.byte ≤ offset && offset < se.2.byte then some (i, se)
    else findLine offset rest (i + 1)

/-- `SourceFile::to_position`: convert a byte offset to a line/UTF-16-column
position.  Note the source's first test is `offset + 1 > self.text.len()`,
which already fires at `offset = len`, making the following `else if`
unreachable. -/
def SourceFile.to_position (f : SourceFile) (offset : Nat) : Option Position :=
  if offset + 1 > strBytes f.text then none
  else if offset = strBytes f.text then
    some ⟨f.lines.length,
      match f.lines.getLast? with
      | some (s, e) => e.utf16 - s.utf16
      | none => 0⟩
  else
    match findLine offset f.lines 0 with
    | none => none
    | some (line, (s, _)) =>
      some ⟨line, strUtf16 (sliceBytes f.text s.byte offset)⟩

/-- `SourceFile::replace`: splice `t` into the byte range `[a, b)` and rebuild
the line table (the source rebuilds by calling `compute_lines`). -/
def SourceFile.replace (f : SourceFile) (a b : Nat) (t : List Char) : SourceFile :=
  SourceFile.new (takeBytes f.text a ++ t ++ dropBytes f.text b)

/-! ## DirtyRangeTracker (`src/changes.rs`) -/

/-- Rust `Range<usize>::len()` (via `ExactSizeIterator`): `end - start`,
zero when inverted — exactly Nat truncated subtraction. -/
def rangeLen (r : Nat × Nat) : Nat := r.2 - r.1

/-- Comparison used by `self.changes.sort_by(|a, b| a.start.cmp(&b.start))`. -/
def startLe (a b : Nat × Nat) : Prop := a.1 ≤ b.1

instance : DecidableRel startLe := fun a b => Nat.decLe a.1 b.1

instance : IsTotal (Nat × Nat) startLe := ⟨fun a b => Nat.le_total a.1 b.1⟩

instance : IsTrans (Nat × Nat) startLe := ⟨fun _ _ _ => Nat.le_trans⟩

/-- The merge loop of `Changes::add_change`: `cur` is the current last merged
range, updated in place while the next range touches it. -/
def mergeGo (cur : Nat × Nat) : List (Nat × Nat) → List (Nat × Nat)
  | [] => [cur]
  | c :: cs =>
    if c.1 ≤ cur.2 then mergeGo (min cur.1 c.1, max cur.2 c.2) cs
    else cur :: mergeGo c cs

/-- Merge overlapping/touching ranges of a start-sorted list (the second half
of `Changes::add_change`). -/
def mergeRanges : List (Nat × Nat) → List (Nat × Nat)
  | [] => []
  | c :: cs => mergeGo c cs

/-- Shift applied to one endpoint `x` of an existing range when `x ≥ range.end`:
the source computes `usize::try_from(x as isize + shift).unwrap()` with
`shift = len - range.len()`.  Under the guard `range.2 ≤ x` the value
`x + len - (range.2 - range.1)` is nonnegative, so plain Nat arithmetic (with
truncated subtraction) agrees with the source and the `unwrap` cannot panic
(see `shiftEndpoint_eq_int`). -/
def shiftEndpoint (range : Nat × Nat) (len x : Nat) : Nat :=
  x + len - rangeLen range

/-- `Changes::add_change`: shift ranges at/after the edit, insert the new
range, then sort by start and merge touching ranges. -/
def add_change (changes : List (Nat × Nat)) (range : Nat × Nat) (len : Nat) :
    List (Nat × Nat) :=
  let shifted := changes.map fun c =>
    (if range.2 ≤ c.1 then shiftEndpoint range len c.1 else c.1,
     if range.2 ≤ c.2 then shiftEndpoint range len c.2 else c.2)
  let inserted := shifted ++ [(range.1, shiftEndpoint range len range.2)]
  mergeRanges (List.insertionSort startLe inserted)

/-- The truncated-Nat shift agrees with the source's signed computation for a
well-formed edit range, whenever the guard `range.2 ≤ x` of `add_change`
holds; in particular the argument of `usize::try_from` is nonnegative and the
`unwrap` never panics. -/
theorem shiftEndpoint_eq_int (range : Nat × Nat) (len x : Nat)
    (hr : range.1 ≤ range.2) (h : range.2 ≤ x) :
    (shiftEndpoint range len x : Int) =
      (x : Int) + ((len : Int) - ((range.2 : Int) - (range.1 : Int))) ∧
      0 ≤ (x : Int) + ((len : Int) - ((range.2 : Int) - (range.1 : Int))) := by
  unfold shiftEndpoint rangeLen
  omega

/-- Fold a whole sequence of `add_change` calls from the empty tracker. -/
def addChangeAll (ops : List ((Nat × Nat) × Nat)) : List (Nat × Nat) :=
  ops.foldl (fun s op => add_change s op.1 op.2) []

/-- The tracker invariant relation: consecutive ranges neither touch nor
overlap (`ranges[i].end < ranges[i+1].start`). -/
def touchFree (a b : Nat × Nat) : Prop := a.2 < b.1

/-- Core property of the merge loop: from a start-sorted input it produces a
start-sorted, pairwise non-touching list whose elements all start at or after
the current range's start. -/
theorem mergeGo_invariant (l : List (Nat × Nat)) :
    ∀ cur, List.Sorted startLe (cur :: l) →
      List.Chain' touchFree (mergeGo cur l) ∧
      List.Sorted startLe (mergeGo cur l) ∧
      ∀ x ∈ mergeGo cur l, cur.1 ≤ x.1 := by
  induction l with
  | nil =>
    intro cur _
    refine ⟨List.chain'_singleton _, List.sorted_singleton _, ?_⟩
    intro x hx
    simp only [mergeGo, List.mem_singleton] at hx
    exact hx ▸ le_refl _
  | cons c cs ih =>
    intro cur hs
    rw [List.sorted_cons] at hs
    obtain ⟨hcur, hccs⟩ := hs
    have hcurc : cur.1 ≤ c.1 := hcur c (List.mem_cons_self _ _)
    by_cases hm : c.1 ≤ cur.2
    · -- merge branch: absorb `c` into `cur`
      have hmin : min cur.1 c.1 = cur.1 := min_eq_left hcurc
      have hsorted : List.Sorted startLe ((min cur.1 c.1, max cur.2 c.2) :: cs) := by
        rw [List.sorted_cons]
        refine ⟨fun b hb => ?_, hccs.of_cons⟩
        have : startLe c b := (List.sorted_cons.mp hccs).1 b hb
        exact le_trans (le_trans (min_le_left _ _) hcurc) this
      have hres := ih _ hsorted
      have hgo : mergeGo cur (c :: cs) = mergeGo (min cur.1 c.1, max cur.2 c.2) cs := by
        simp [mergeGo, hm]
      rw [hgo]
      refine ⟨hres.1, hres.2.1, fun x hx => ?_⟩
      have := hres.2.2 x hx
      simpa [hmin] using this
    · -- push branch: `cur` is final, continue with `c`
      push_neg at hm
      have hres := ih c hccs
      have hgo : mergeGo cur (c :: cs) = cur :: mergeGo c cs := by
        simp [mergeGo, Nat.not_le.mpr hm]
      rw [hgo]
      have hall : ∀ x ∈ mergeGo c cs, cur.1 ≤ x.1 :=
        fun x hx => le_trans hcurc (hres.2.2 x hx)
      refine ⟨?_, ?_, ?_⟩
      · rw [List.chain'_cons']
        refine ⟨fun y hy => ?_, hres.1⟩
        have hy' : y ∈ mergeGo c cs := by
          cases hh : (mergeGo c cs).head? with
          | none => rw [hh] at hy; cases hy
          | some z =>
            rw [hh] at hy
            simp only [Option.mem_some_iff] at hy
            exact hy ▸ List.mem_of_mem_head? (hh ▸ rfl)
        exact lt_of_lt_of_le hm (hres.2.2 y hy')
      · rw [List.sorted_cons]
        exact ⟨fun b hb => hall b hb, hres.2.1⟩
      · intro x hx
        rcases List.mem_cons.mp hx with h | h
        · exact h ▸ le_refl _
        · exact hall x h

/-- `mergeRanges` of any start-sorted list is start-sorted and pairwise
non-touching. -/
theorem mergeRanges_invariant (l : List (Nat × Nat)) (h : List.Sorted startLe l) :
    List.Chain' touchFree (mergeRanges l) ∧ List.Sorted startLe (mergeRanges l) := by
  match l with
  | [] => exact ⟨List.chain'_nil, List.sorted_nil⟩
  | c :: cs =>
    have := mergeGo_invariant cs c h
    exact ⟨this.1, this.2.1⟩

/-- `add_change` re-establishes the tracker invariant from any prior state:
its final sort-and-merge pass alone guarantees it. -/
theorem add_change_invariant (changes : List (Nat × Nat)) (range : Nat × Nat)
    (len : Nat) :
    List.Chain' touchFree (add_change changes range len) ∧
    List.Sorted startLe (add_change changes range len) :=
  mergeRanges_invariant _ (List.sorted_insertionSort startLe _)

/-- The embedded `add_change` reproduces the unit test of `src/changes.rs`. -/
example :
    addChangeAll [((0, 5), 3)] = [(0, 3)] ∧
    addChangeAll [((0, 5), 3), ((3, 7), 4)] = [(0, 7)] ∧
    addChangeAll [((0, 5), 3), ((3, 7), 4), ((20, 30), 3)] = [(0, 7), (20, 23)] ∧
    addChangeAll [((0, 5), 3), ((3, 7), 4), ((20, 30), 3), ((0, 1), 0)] =
      [(0, 6), (19, 22)] ∧
    addChangeAll [((0, 5), 3), ((3, 7), 4), ((20, 30), 3), ((0, 1), 0), ((0, 0), 10)] =
      [(0, 16), (29, 32)] := by
  decide

/-- C6: starting from an empty tracker, after any sequence of
`add_change(lineRange, newLineCount)` calls the tracked set of line ranges is
sorted by start and pairwise non-touching: every consecutive pair satisfies
`ranges[i].end < ranges[i+1].start`. -/
theorem changes_sorted_touchfree (ops : List ((Nat × Nat) × Nat)) :
    List.Chain' touchFree (addChangeAll ops) ∧
    List.Sorted startLe (addChangeAll ops) := by
  have aux : ∀ (l : List ((Nat × Nat) × Nat)) (s : List (Nat × Nat)),
      List.Chain' touchFree s ∧ List.Sorted startLe s →
      List.Chain' touchFree (l.foldl (fun t op => add_change t op.1 op.2) s) ∧
      List.Sorted startLe (l.foldl (fun t op => add_change t op.1 op.2) s) := by
    intro l
    induction l with
    | nil => intro s hs; exact hs
    | cons op rest ih =>
      intro s _
      exact ih (add_change s op.1 op.2) (add_change_invariant s op.1 op.2)
  exact aux ops [] ⟨List.chain'_nil, List.sorted_nil⟩

/-! ## AnnotatedText (`src/annotated/mod.rs`) -/

/-- One payload segment (`Annotation` in `src/annotated/mod.rs`): literal
text, or markup with an interpretation. -/
inductive Annot where
  | text (t : List Char)
  | markup (m interp : List Char)
deriving DecidableEq, Repr

/-- The check payload (`AnnotatedText`). -/
structure AnnotatedText where
  annots : List Annot
deriving DecidableEq, Repr

/-- `AnnotatedText::new`. -/
def AnnotatedText.empty : AnnotatedText := ⟨[]⟩

/-- The rendered string of one segment, as `AnnotatedText::parts` yields it. -/
def Annot.partStr : Annot → List Char
  | .text t => t
  | .markup m _ => m

/-- `AnnotatedText::parts`. -/
def AnnotatedText.parts (a : AnnotatedText) : List (List Char) :=
  a.annots.map Annot.partStr

/-- `AnnotatedText::len`: total byte length of all parts. -/
def AnnotatedText.len (a : AnnotatedText) : Nat :=
  (a.annots.map fun an => strBytes an.partStr).sum

/-- The main loop of `AnnotatedText::optimize`, with the rebuilt segment list
accumulated in reverse (the head of `acc` is the `last_mut()` of the source):
drop all-whitespace leading segments (accumulating their byte length in
`off`), concatenate a text segment onto a preceding text segment, concatenate
a markup segment onto a preceding markup segment when both interpretations
are empty, and push everything else. -/
def optGo : List Annot → List Annot → Nat → List Annot × Nat
  | [], acc, off => (acc, off)
  | .text t :: rest, [], off =>
    if blank t then optGo rest [] (off + strBytes t)
    else optGo rest [.text t] off
  | .markup m i :: rest, [], off =>
    if blank i then optGo rest [] (off + strBytes m)
    else optGo rest [.markup m i] off
  | .text t :: rest, .text lt :: acc, off => optGo rest (.text (lt ++ t) :: acc) off
  | .markup m i :: rest, .markup lm li :: acc, off =>
    if i.isEmpty && li.isEmpty then optGo rest (.markup (lm ++ m) li :: acc) off
    else optGo rest (.markup m i :: .markup lm li :: acc) off
  | old :: rest, acc, off => optGo rest (old :: acc) off

/-- The trailing-whitespace loop of `optimize`, acting on the reversed list
(popping the head here is popping the last segment there).  Note the source
binds `interpret_as` of a markup segment as the text to trim. -/
def trimEndAnnots : List Annot → List Annot
  | [] => []
  | .text t :: rest =>
    if (trimEnd t).isEmpty then trimEndAnnots rest else .text (trimEnd t) :: rest
  | .markup m i :: rest =>
    if (trimEnd i).isEmpty then trimEndAnnots rest else .markup m (trimEnd i) :: rest

/-- `AnnotatedText::optimize`, functionally: the optimized payload and the
number of leading whitespace bytes removed. -/
def optimize (a : AnnotatedText) : AnnotatedText × Nat :=
  let go := optGo a.annots [] 0
  (⟨(trimEndAnnots go.1).reverse⟩, go.2)

/-! ## Plaintext annotation (`src/annotated/plaintext.rs`) -/

/-- The backward paragraph-start walk of `annotate`:
`for i in (0..lines.start).rev()`, stopping at the first blank line. -/
def paraStart (f : SourceFile) : Nat → Except String Nat
  | 0 => .ok 0
  | s + 1 =>
    match f.line_range s (s + 1) with
    | none => .error "Invalid Line"
    | some (_, t) => if blank t then .ok (s + 1) else paraStart f s

/-- The forward paragraph-end walk of `annotate`, with `fuel` counting the
remaining iterations of `for i in lines.end..source.lines().len()`: `e` is
the current `lines.end`, updated to `i` (not `i + 1`) on a non-blank line. -/
def paraEndGo (f : SourceFile) : Nat → Nat → Nat → Except String Nat
  | 0, _, e => .ok e
  | fuel + 1, i, e =>
    match f.line_range i (i + 1) with
    | none => .error "Invalid Line"
    | some (_, t) => if blank t then .ok e else paraEndGo f fuel (i + 1) i

/-- The forward paragraph-end walk, starting at `lines.end`. -/
def paraEnd (f : SourceFile) (e : Nat) : Except String Nat :=
  paraEndGo f (f.lines.length - e) e e

/-- `plaintext::annotate`: skip all-whitespace ranges, extend the dirty line
range to the enclosing paragraph, and emit the covered slice as one text
segment. -/
def annotate (f : SourceFile) (lines : Nat × Nat) :
    Except String ((Nat × Nat) × AnnotatedText) :=
  let skip :=
    match f.line_range lines.1 lines.2 with
    | some (range, text) =>
      if blank text then some ((range.1.byte, range.2.byte), AnnotatedText.empty)
      else none
    | none => none
  match skip with
  | some r => .ok r
  | none => do
    let s ← paraStart f lines.1
    let e ← paraEnd f lines.2
    match f.line_range s e with
    | none => .error "Invalid Line"
    | some (range, text) =>
      .ok ((range.1.byte, range.2.byte),
        if blank text then AnnotatedText.empty else ⟨[.text text]⟩)

/-! ## Issues and the check API translation (`src/api/check.rs`) -/

/-- A reported issue (`Match` in `src/api/mod.rs`). -/
structure Match where
  range : Nat × Nat
  title : String
  message : String
  replacements : List String
  category : String
  rule : String
deriving DecidableEq, Repr

/-- A category in a check response (`Category`). -/
structure Category where
  id : String
deriving DecidableEq, Repr

/-- A rule in a check response (`Rule`). -/
structure Rule where
  id : String
  category : Category
deriving DecidableEq, Repr

/-- A suggested replacement in a check response (`Replacement`). -/
structure Replacement where
  value : String
deriving DecidableEq, Repr

/-- One entry of a check response (`CheckMatch`); `offset`/`length` are in
UTF-16 code units of the payload. -/
structure CheckMatch where
  message : String
  short_message : String
  rule : Rule
  replacements : List Replacement
  offset : Nat
  length : Nat
deriving DecidableEq, Repr

/-- The response-translation step of `api::check`: convert the UTF-16
offsets against the payload's own character stream, add the base offset, and
keep at most the first ten replacements. -/
def translateMatch (text : AnnotatedText) (offset : Nat) (m : CheckMatch) : Match :=
  { range :=
      (offset + utf16_to_byte text.parts.flatten m.offset,
       offset + utf16_to_byte text.parts.flatten (m.offset + m.length)),
    title := m.short_message,
    message := m.message,
    replacements := (m.replacements.take 10).map fun r => r.value,
    category := m.rule.category.id,
    rule := m.rule.id }

/-- The pure part of `api::check`: translate every response entry. -/
def check_translate (text : AnnotatedText) (offset : Nat)
    (resp : List CheckMatch) : List Match :=
  resp.map (translateMatch text offset)

/-! ## The Document and its event handlers (`src/main.rs`) -/

/-- `RangeExt::touches` from `src/util.rs`: overlap or boundary contact. -/
def touches (a b : Nat × Nat) : Prop := a.1 ≤ b.2 ∧ b.1 ≤ a.2

instance (a b : Nat × Nat) : Decidable (touches a b) := instDecidableAnd

/-- The per-document state (`Document` in `src/main.rs`).  The issue list is
called `matches` in the source; `matches` is a reserved word in Lean, hence
the primed name. -/
structure Document where
  source : SourceFile
  version : Option Int
  matches' : List Match
  changed_lines : List (Nat × Nat)
deriving DecidableEq, Repr

/-- The settings fields `update_matches` and `did_change` depend on.  The
remaining fields of `Settings` (server URL, credentials, language and rule
toggles) only shape the HTTP request, which the check oracle models;
`remote_dictionary` is carried to show it is never consulted here. -/
structure Settings where
  sync_dictionary : Bool
  remote_dictionary : List (List Char)
deriving DecidableEq, Repr

/-- Rust `x as usize` applied to an `isize`: two's-complement wrap on 64
bits (exact whenever the signed intermediate fits in `i64`). -/
def asUsize (x : Int) : Nat := (x % (2 ^ 64)).toNat

/-- The issue-shifting loop of `did_change` (`src/main.rs` lines 124-133):
after replacing bytes `[start, endB)` by `insertedLen` new bytes, each range
endpoint at or after `endB` is moved by `insertedLen - (endB - start)`; the
two endpoints are tested independently. -/
def shiftForEdit (start endB insertedLen : Nat) (ms : List Match) : List Match :=
  let shift : Int := (insertedLen : Int) - ((endB : Int) - (start : Int))
  ms.map fun m =>
    { m with
      range :=
        (if endB ≤ m.range.1 then asUsize ((m.range.1 : Int) + shift) else m.range.1,
         if endB ≤ m.range.2 then asUsize ((m.range.2 : Int) + shift) else m.range.2) }

/-- Rust `change.text.split('\x0a').count()`: one more than the number of
newlines. -/
def countSplitLines (t : List Char) : Nat := t.count '\n' + 1

/-- Handling of one element of `content_changes` in `did_change`.  With a
range: record the dirty lines, splice the text, bump the version, and shift
the stored issues; the `unwrap`s on the offset conversions are modelled by
`none`.  Without a range: replace the whole document and clear both the
issue list and the dirty-range tracker. -/
def applyContentChange (doc : Document) (version : Int)
    (range : Option (Position × Position)) (text : List Char) : Option Document :=
  match range with
  | some (rs, re) =>
    let changed :=
      add_change doc.changed_lines (rs.line, re.line + 1) (countSplitLines text)
    match doc.source.to_offset rs, doc.source.to_offset re with
    | some start, some endB =>
      some { source := doc.source.replace start endB text,
             version := some version,
             matches' := shiftForEdit start endB (strBytes text) doc.matches',
             changed_lines := changed }
    | _, _ => none
  | none =>
    some { source := SourceFile.new text,
           version := some version,
           matches' := [],
           changed_lines := [] }

/-- The dictionary filter of `update_matches` (`src/main.rs` lines 435-445):
only when `sync_dictionary` is off, drop matches of category `TYPOS` whose
flagged substring is in the local dictionary. -/
def dictFilter (sync_dictionary : Bool) (dict : List (List Char))
    (text : List Char) (ms : List Match) : List Match :=
  if !sync_dictionary then
    ms.filter fun m =>
      !(m.category == "TYPOS" && dict.contains (sliceBytes text m.range.1 m.range.2))
  else ms

/-- Ordering key of `doc.matches.sort_by_key(|m| m.range.start)`. -/
def matchStartLe (a b : Match) : Prop := a.range.1 ≤ b.range.1

instance : DecidableRel matchStartLe := fun a b => Nat.decLe a.range.1 b.range.1

/-- The per-range loop of `update_matches`: annotate, optimize, skip empty
payloads, call the check service (the oracle), filter dictionary words, and
reconcile (drop touching issues, append, sort).  An error from annotation or
from the oracle aborts the whole handler (`?` in the source), keeping the
document state reached so far. -/
def updateGo (settings : Settings) (dict : List (List Char))
    (oracle : AnnotatedText → Nat → Except String (List Match)) :
    List (Nat × Nat) → Document → Document × Option String
  | [], doc => (doc, none)
  | lines :: rest, doc =>
    match annotate doc.source lines with
    | .error e => (doc, some e)
    | .ok (range, annot) =>
      let opt := optimize annot
      let start := range.1 + opt.2
      if opt.1.len = 0 then updateGo settings dict oracle rest doc
      else
        match oracle opt.1 start with
        | .error e => (doc, some e)
        | .ok ms =>
          let ms2 := dictFilter settings.sync_dictionary dict doc.source.text ms
          let checked := (start, range.2)
          let kept := doc.matches'.filter fun m => !(decide (touches m.range checked))
          updateGo settings dict oracle rest
            { doc with matches' := List.insertionSort matchStartLe (kept ++ ms2) }

/-- `Backend::update_matches`: drain the dirty ranges (cleared before any
check call is made), then process each in order. -/
def update_matches (doc : Document) (settings : Settings)
    (dict : List (List Char))
    (oracle : AnnotatedText → Nat → Except String (List Match)) :
    Document × Option String :=
  updateGo settings dict oracle doc.changed_lines { doc with changed_lines := [] }

/-! ## Claim theorems: evaluations and counterexamples -/

deriving instance DecidableEq for Except

/-- C3 (code bug): at a byte offset exactly equal to the text length,
`to_position` returns `none` instead of the synthetic one-past-last-line
position: the guard `offset + 1 > len` already fires at `offset = len`,
so the `else if offset == len` branch of the source is unreachable. -/
theorem to_position_at_text_len :
    strBytes (SourceFile.new "ab".toList).text = 2 ∧
    (SourceFile.new "ab".toList).to_position 2 = none := by
  decide

/-- C4 (code bug): editing line 0 of the two-line paragraph `"aa\nbb\n"`
produces the payload `"aa\n"` over bytes `[0, 3)` only — the paragraph's
last non-blank line `"bb\n"` (bytes `[3, 6)`, non-blank as the second
conjunct shows) is excluded, because the forward walk sets `lines.end` to
the index of the last non-blank line, which the end-exclusive slice then
omits. -/
theorem annotate_excludes_last_paragraph_line :
    annotate (SourceFile.new "aa\nbb\n".toList) (0, 1) =
      .ok ((0, 3), ⟨[.text "aa\n".toList]⟩) ∧
    blank (sliceBytes "aa\nbb\n".toList 3 6) = false := by
  decide

/-- C9: a change event carrying no range replaces the buffer with the
event's full text and leaves the stored issue list and the dirty-range
tracker both empty, so no line is marked dirty. -/
theorem didChange_full_replace (doc : Document) (v : Int) (t : List Char) :
    ∃ d, applyContentChange doc v none t = some d ∧
      d.source = SourceFile.new t ∧ d.version = some v ∧
      d.matches' = [] ∧ d.changed_lines = [] :=
  ⟨_, rfl, rfl, rfl, rfl, rfl⟩

/-- C10: a translated issue keeps at most the first ten suggested
replacements of the response entry, in the service's order (its replacement
list is a prefix of the full translated list). -/
theorem translateMatch_replacements_first_ten (text : AnnotatedText)
    (offset : Nat) (m : CheckMatch) :
    (translateMatch text offset m).replacements.length ≤ 10 ∧
    ∃ rest, (translateMatch text offset m).replacements ++ rest =
      m.replacements.map fun r => r.value := by
  constructor
  · simp only [translateMatch, List.length_map, List.length_take]
    exact min_le_left _ _
  · refine ⟨(m.replacements.map fun r => r.value).drop 10, ?_⟩
    simp only [translateMatch, ← List.map_take]
    rw [← List.map_drop, ← List.map_append, List.take_append_drop]

/-- C1 (counterexample): an issue spanning `[1, 10)` straddles the edited
byte range `[2, 5)` (its start is before the edit end, its end after), yet
the shift step does not leave it unchanged — its end endpoint is moved by
the edit's delta. -/
theorem shiftForEdit_not_frame :
    shiftForEdit 2 5 0
        [{ range := (1, 10), title := "", message := "", replacements := [],
           category := "", rule := "" }] ≠
      [{ range := (1, 10), title := "", message := "", replacements := [],
         category := "", rule := "" }] := by
  decide

/-- Helper: the `as usize` wrap is the identity on values that fit. -/
theorem asUsize_eq (x : Int) (h0 : 0 ≤ x) (h1 : x < 2 ^ 64) :
    (asUsize x : Int) = x := by
  unfold asUsize
  rw [Int.emod_eq_of_lt h0 h1, Int.toNat_of_nonneg h0]

/-- C1 (amended): the shift step tests the two endpoints independently
against `editEndByte`.  An issue starting at or after the edit end has both
endpoints moved by `insertedLen - (editEndByte - editStartByte)`; an issue
ending strictly before the edit end is completely unchanged; an issue
straddling the edit end keeps its start but has its end moved.  All other
fields are preserved.  (Hypotheses bound the shifted values inside `usize`,
where the source's two's-complement casts are exact.) -/
theorem shiftForEdit_spec (start endB insertedLen : Nat) (ms : List Match)
    (i : Nat) (m : Match) (hm : ms[i]? = some m)
    (hwf : m.range.1 ≤ m.range.2)
    (hlo : 0 ≤ (m.range.1 : Int) +
      ((insertedLen : Int) - ((endB : Int) - (start : Int))))
    (hhi : (m.range.2 : Int) +
      ((insertedLen : Int) - ((endB : Int) - (start : Int))) < 2 ^ 64) :
    ∃ m', (shiftForEdit start endB insertedLen ms)[i]? = some m' ∧
      m'.title = m.title ∧ m'.message = m.message ∧
      m'.replacements = m.replacements ∧ m'.category = m.category ∧
      m'.rule = m.rule ∧
      (endB ≤ m.range.1 →
        (m'.range.1 : Int) = (m.range.1 : Int) +
          ((insertedLen : Int) - ((endB : Int) - (start : Int))) ∧
        (m'.range.2 : Int) = (m.range.2 : Int) +
          ((insertedLen : Int) - ((endB : Int) - (start : Int)))) ∧
      (m.range.2 < endB → m' = m) ∧
      (m.range.1 < endB → endB ≤ m.range.2 →
        m'.range.1 = m.range.1 ∧
        (m'.range.2 : Int) = (m.range.2 : Int) +
          ((insertedLen : Int) - ((endB : Int) - (start : Int)))) := by
  obtain ⟨⟨r1, r2⟩, t, msg, rep, cat, ru⟩ := m
  simp only at hwf hlo hhi ⊢
  refine ⟨⟨(if endB ≤ r1 then
        asUsize ((r1 : Int) + ((insertedLen : Int) - ((endB : Int) - (start : Int))))
      else r1,
      if endB ≤ r2 then
        asUsize ((r2 : Int) + ((insertedLen : Int) - ((endB : Int) - (start : Int))))
      else r2),
      t, msg, rep, cat, ru⟩, ?_, rfl, rfl, rfl, rfl, rfl, ?_, ?_, ?_⟩
  · simp [shiftForEdit, List.getElem?_map, hm]
  · intro h1
    have h2 : endB ≤ r2 := le_trans h1 hwf
    have hlo2 : 0 ≤ (r2 : Int) + ((insertedLen : Int) - ((endB : Int) - (start : Int))) := by
      have : (r1 : Int) ≤ (r2 : Int) := Int.ofNat_le.mpr hwf
      omega
    have hhi1 : (r1 : Int) + ((insertedLen : Int) - ((endB : Int) - (start : Int))) < 2 ^ 64 := by
      have : (r1 : Int) ≤ (r2 : Int) := Int.ofNat_le.mpr hwf
      omega
    rw [if_pos h1, if_pos h2]
    exact ⟨asUsize_eq _ hlo hhi1, asUsize_eq _ hlo2 hhi⟩
  · intro h1
    have h2 : ¬ endB ≤ r1 := by omega
    have h3 : ¬ endB ≤ r2 := by omega
    rw [if_neg h2, if_neg h3]
  · intro h1 h2
    have h3 : ¬ endB ≤ r1 := by omega
    have hlo2 : 0 ≤ (r2 : Int) + ((insertedLen : Int) - ((endB : Int) - (start : Int))) := by
      have : (r1 : Int) ≤ (r2 : Int) := Int.ofNat_le.mpr hwf
      omega
    rw [if_neg h3, if_pos h2]
    exact ⟨rfl, asUsize_eq _ hlo2 hhi⟩

/-- Witness for `shiftForEdit_spec` at a concrete shrinking edit: replacing
bytes `[2, 5)` by nothing moves the issue `[6, 10)` to `[3, 7)`. -/
theorem shiftForEdit_spec_witness :
    ∃ m', (shiftForEdit 2 5 0
        [{ range := (6, 10), title := "", message := "", replacements := [],
           category := "", rule := "" }])[0]? = some m' ∧
      (m'.range.1 : Int) = 3 ∧ (m'.range.2 : Int) = 7 := by
  obtain ⟨m', hget, _, _, _, _, _, hshift, _, _⟩ :=
    shiftForEdit_spec 2 5 0
      [{ range := (6, 10), title := "", message := "", replacements := [],
         category := "", rule := "" }] 0
      { range := (6, 10), title := "", message := "", replacements := [],
        category := "", rule := "" }
      rfl (by decide) (by decide) (by decide)
  obtain ⟨h1, h2⟩ := hshift (by decide)
  refine ⟨m', hget, ?_, ?_⟩
  · rw [h1]; decide
  · rw [h2]; decide

/-- C5 (counterexample): with remote dictionary synchronization enabled, a
spelling (`TYPOS`) issue whose flagged substring `"helo"` is in the remote
dictionary (and even in the local one) is NOT suppressed — it enters the
issue store, because `update_matches` only filters when `sync_dictionary`
is off. -/
theorem update_matches_no_filter_when_sync :
    (update_matches
        { source := SourceFile.new "helo wrld".toList, version := none,
          matches' := [], changed_lines := [(0, 1)] }
        { sync_dictionary := true, remote_dictionary := ["helo".toList] }
        ["helo".toList]
        (fun _ _ => .ok [{ range := (0, 4), title := "t", message := "m",
                           replacements := [], category := "TYPOS",
                           rule := "r" }])).1.matches' =
      [{ range := (0, 4), title := "t", message := "m", replacements := [],
         category := "TYPOS", rule := "r" }] ∧
    sliceBytes "helo wrld".toList 0 4 = "helo".toList := by
  decide

/-- C5 (amended): an issue is removed by the dictionary filter iff remote
dictionary synchronization is DISABLED, its category is the spelling
category `TYPOS`, and its exact flagged substring is in the local
dictionary; with synchronization enabled no client-side filtering happens
at all. -/
theorem dictFilter_spec (sync : Bool) (dict : List (List Char))
    (text : List Char) (ms : List Match) (m : Match) (hm : m ∈ ms) :
    m ∈ dictFilter sync dict text ms ↔
      ¬ (sync = false ∧ m.category = "TYPOS" ∧
         sliceBytes text m.range.1 m.range.2 ∈ dict) := by
  cases sync with
  | true => simp [dictFilter, hm]
  | false =>
    simp only [dictFilter, Bool.not_false, if_pos]
    rw [List.mem_filter]
    simp [hm]
    tauto

/-- Witness for `dictFilter_spec`: a `TYPOS` issue over `"helo"` is kept
when sync is on, even though the word is in the dictionary. -/
theorem dictFilter_spec_witness :
    { range := (0, 4), title := "t", message := "m", replacements := [],
      category := "TYPOS", rule := "r" : Match } ∈
      dictFilter true ["helo".toList] "helo wrld".toList
        [{ range := (0, 4), title := "t", message := "m", replacements := [],
           category := "TYPOS", rule := "r" }] ↔
      ¬ (true = false ∧
         ({ range := (0, 4), title := "t", message := "m", replacements := [],
            category := "TYPOS", rule := "r" : Match }).category = "TYPOS" ∧
         sliceBytes "helo wrld".toList 0 4 ∈ ["helo".toList]) :=
  dictFilter_spec true ["helo".toList] "helo wrld".toList _ _ (by decide)

/-- C2 (counterexample): a cycle with two dirty ranges over the two-paragraph
buffer `"aa\n\nbb\n"`, where the check of the first range succeeds and the
check of the second fails.  Contrary to the claim, on failure (i) the stored
issue list WAS updated — the first range's result is already in the store,
so results of that cycle were partially applied — and (ii) the dirty ranges
do not remain marked: the tracker was cleared before the first call and is
left empty. -/
theorem update_matches_partial_application :
    (update_matches
        { source := SourceFile.new "aa\n\nbb\n".toList, version := none,
          matches' := [], changed_lines := [(0, 1), (2, 3)] }
        { sync_dictionary := false, remote_dictionary := [] } []
        (fun _ o => if o = 0
          then .ok [{ range := (0, 2), title := "t", message := "m",
                      replacements := [], category := "GRAMMAR", rule := "r" }]
          else .error "HTTP 503")).2 = some "HTTP 503" ∧
    (update_matches
        { source := SourceFile.new "aa\n\nbb\n".toList, version := none,
          matches' := [], changed_lines := [(0, 1), (2, 3)] }
        { sync_dictionary := false, remote_dictionary := [] } []
        (fun _ o => if o = 0
          then .ok [{ range := (0, 2), title := "t", message := "m",
                      replacements := [], category := "GRAMMAR", rule := "r" }]
          else .error "HTTP 503")).1.matches' =
      [{ range := (0, 2), title := "t", message := "m",
         replacements := [], category := "GRAMMAR", rule := "r" }] ∧
    (update_matches
        { source := SourceFile.new "aa\n\nbb\n".toList, version := none,
          matches' := [], changed_lines := [(0, 1), (2, 3)] }
        { sync_dictionary := false, remote_dictionary := [] } []
        (fun _ o => if o = 0
          then .ok [{ range := (0, 2), title := "t", message := "m",
                      replacements := [], category := "GRAMMAR", rule := "r" }]
          else .error "HTTP 503")).1.changed_lines = [] := by
  decide

/-- The per-range loop never touches the dirty-range tracker: it only reads
the list it was handed. -/
theorem updateGo_changed_lines (settings : Settings) (dict : List (List Char))
    (oracle : AnnotatedText → Nat → Except String (List Match)) :
    ∀ (changes : List (Nat × Nat)) (doc : Document),
      (updateGo settings dict oracle changes doc).1.changed_lines =
        doc.changed_lines := by
  intro changes
  induction changes with
  | nil => intro doc; rfl
  | cons lines rest ih =>
    intro doc
    cases hann : annotate doc.source lines with
    | error e => simp [updateGo, hann]
    | ok ra =>
      obtain ⟨range, annot⟩ := ra
      by_cases hlen : (optimize annot).1.len = 0
      · simpa [updateGo, hann, hlen] using ih doc
      · cases hor : oracle (optimize annot).1 (range.1 + (optimize annot).2) with
        | error e => simp [updateGo, hann, hlen, hor]
        | ok ms => simpa [updateGo, hann, hlen, hor] using ih _

/-- If the per-range loop ends in an error, the document state it returns is
exactly the state reached by fully processing some proper prefix of the
ranges: everything before the failing range is applied, nothing at or after
it is. -/
theorem updateGo_error_prefix (settings : Settings) (dict : List (List Char))
    (oracle : AnnotatedText → Nat → Except String (List Match)) :
    ∀ (changes : List (Nat × Nat)) (doc : Document),
      (updateGo settings dict oracle changes doc).2.isSome = true →
      ∃ pre suf, changes = pre ++ suf ∧ suf ≠ [] ∧
        (updateGo settings dict oracle pre doc).2 = none ∧
        (updateGo settings dict oracle changes doc).1 =
          (updateGo settings dict oracle pre doc).1 := by
  intro changes
  induction changes with
  | nil => intro doc h; simp [updateGo] at h
  | cons lines rest ih =>
    intro doc h
    cases hann : annotate doc.source lines with
    | error e =>
      refine ⟨[], lines :: rest, rfl, by simp, rfl, ?_⟩
      simp [updateGo, hann]
    | ok ra =>
      obtain ⟨range, annot⟩ := ra
      by_cases hlen : (optimize annot).1.len = 0
      · have hred : ∀ tail : List (Nat × Nat),
            updateGo settings dict oracle (lines :: tail) doc =
              updateGo settings dict oracle tail doc := by
          intro tail
          simp [updateGo, hann, hlen]
        rw [hred rest] at h
        obtain ⟨pre, suf, heq, hsuf, hnone, hstate⟩ := ih doc h
        refine ⟨lines :: pre, suf, by rw [List.cons_append, heq], hsuf, ?_, ?_⟩
        · rw [hred pre]
          exact hnone
        · rw [hred rest, hred pre]
          exact hstate
      · cases hor : oracle (optimize annot).1 (range.1 + (optimize annot).2) with
        | error e =>
          refine ⟨[], lines :: rest, rfl, by simp, rfl, ?_⟩
          simp [updateGo, hann, hlen, hor]
        | ok ms =>
          have hred : ∀ tail : List (Nat × Nat),
              updateGo settings dict oracle (lines :: tail) doc =
                updateGo settings dict oracle tail
                  ⟨doc.source, doc.version,
                    List.insertionSort matchStartLe
                      ((doc.matches'.filter fun m =>
                        !(decide (touches m.range
                          (range.1 + (optimize annot).2, range.2)))) ++
                       dictFilter settings.sync_dictionary dict
                         doc.source.text ms),
                    doc.changed_lines⟩ := by
            intro tail
            simp [updateGo, hann, hlen, hor]
          rw [hred rest] at h
          obtain ⟨pre, suf, heq, hsuf, hnone, hstate⟩ := ih _ h
          refine ⟨lines :: pre, suf, by rw [List.cons_append, heq], hsuf, ?_, ?_⟩
          · rw [hred pre]
            exact hnone
          · rw [hred rest, hred pre]
            exact hstate

/-- C2 (amended): if the external check call fails during a check cycle, the
cycle aborts part-way: the resulting issue store is exactly the store
obtained by fully processing the dirty ranges before the failing one — their
results ARE applied, so the cycle's results can be partially applied — while
no result for the failing or later ranges enters the store; and the dirty
line ranges do NOT remain marked: the tracker is drained and cleared before
any check call and a failure does not restore it, so nothing is retried
until a new edit re-dirties the lines. -/
theorem update_matches_failure_prefix (doc : Document) (settings : Settings)
    (dict : List (List Char))
    (oracle : AnnotatedText → Nat → Except String (List Match))
    (hfail : (update_matches doc settings dict oracle).2.isSome = true) :
    (update_matches doc settings dict oracle).1.changed_lines = [] ∧
    ∃ pre suf, doc.changed_lines = pre ++ suf ∧ suf ≠ [] ∧
      (updateGo settings dict oracle pre { doc with changed_lines := [] }).2 =
        none ∧
      (update_matches doc settings dict oracle).1 =
        (updateGo settings dict oracle pre { doc with changed_lines := [] }).1 := by
  constructor
  · show (updateGo settings dict oracle doc.changed_lines
      { doc with changed_lines := [] }).1.changed_lines = []
    rw [updateGo_changed_lines]
  · exact updateGo_error_prefix settings dict oracle doc.changed_lines
      { doc with changed_lines := [] } hfail

/-- Witness for `update_matches_failure_prefix` at the two-range document of
the counterexample: the check of lines 0..1 succeeds, the check of lines
2..3 fails. -/
theorem update_matches_failure_prefix_witness :
    (update_matches
        { source := SourceFile.new "aa\n\nbb\n".toList, version := none,
          matches' := [], changed_lines := [(0, 1), (2, 3)] }
        { sync_dictionary := false, remote_dictionary := [] } []
        (fun _ o => if o = 0
          then .ok [{ range := (0, 2), title := "t", message := "m",
                      replacements := [], category := "GRAMMAR", rule := "r" }]
          else .error "HTTP 503")).1.changed_lines = [] ∧
    ∃ pre suf, [((0 : Nat), (1 : Nat)), (2, 3)] = pre ++ suf ∧ suf ≠ [] ∧
      (updateGo { sync_dictionary := false, remote_dictionary := [] } []
        (fun _ o => if o = 0
          then .ok [{ range := (0, 2), title := "t", message := "m",
                      replacements := [], category := "GRAMMAR", rule := "r" }]
          else .error "HTTP 503") pre
        { source := SourceFile.new "aa\n\nbb\n".toList, version := none,
          matches' := [], changed_lines := [] }).2 = none ∧
      (update_matches
        { source := SourceFile.new "aa\n\nbb\n".toList, version := none,
          matches' := [], changed_lines := [(0, 1), (2, 3)] }
        { sync_dictionary := false, remote_dictionary := [] } []
        (fun _ o => if o = 0
          then .ok [{ range := (0, 2), title := "t", message := "m",
                      replacements := [], category := "GRAMMAR", rule := "r" }]
          else .error "HTTP 503")).1 =
      (updateGo { sync_dictionary := false, remote_dictionary := [] } []
        (fun _ o => if o = 0
          then .ok [{ range := (0, 2), title := "t", message := "m",
                      replacements := [], category := "GRAMMAR", rule := "r" }]
          else .error "HTTP 503") pre
        { source := SourceFile.new "aa\n\nbb\n".toList, version := none,
          matches' := [], changed_lines := [] }).1 :=
  update_matches_failure_prefix
    { source := SourceFile.new "aa\n\nbb\n".toList, version := none,
      matches' := [], changed_lines := [(0, 1), (2, 3)] }
    { sync_dictionary := false, remote_dictionary := [] } []
    (fun _ o => if o = 0
      then .ok [{ range := (0, 2), title := "t", message := "m",
                  replacements := [], category := "GRAMMAR", rule := "r" }]
      else .error "HTTP 503")
    (by decide)

/-! ## Round-trip development for the position conversions -/

theorem charBytes_pos (c : Char) : 1 ≤ charBytes c := by
  unfold charBytes
  split_ifs <;> omega

theorem charUtf16_pos (c : Char) : 1 ≤ charUtf16 c := by
  unfold charUtf16
  split_ifs <;> omega

@[simp] theorem strBytes_nil : strBytes [] = 0 := rfl

@[simp] theorem strBytes_cons (c : Char) (l : List Char) :
    strBytes (c :: l) = charBytes c + strBytes l := rfl

@[simp] theorem strBytes_append (a b : List Char) :
    strBytes (a ++ b) = strBytes a + strBytes b := by
  unfold strBytes
  rw [List.map_append, List.sum_append]

@[simp] theorem strUtf16_nil : strUtf16 [] = 0 := rfl

@[simp] theorem strUtf16_cons (c : Char) (l : List Char) :
    strUtf16 (c :: l) = charUtf16 c + strUtf16 l := rfl

@[simp] theorem strUtf16_append (a b : List Char) :
    strUtf16 (a ++ b) = strUtf16 a + strUtf16 b := by
  unfold strUtf16
  rw [List.map_append, List.sum_append]

theorem strBytes_take_le (l : List Char) (n : Nat) :
    strBytes (l.take n) ≤ strBytes l := by
  conv_rhs => rw [← List.take_append_drop n l]
  rw [strBytes_append]
  exact Nat.le_add_right _ _

/-- Feeding `utf16_to_byte` the UTF-16 length of a prefix recovers exactly
that prefix's byte length: the loop consumes precisely the prefix. -/
theorem utf16_to_byte_prefix (p q : List Char) :
    utf16_to_byte (p ++ q) (strUtf16 p) = strBytes p := by
  induction p with
  | nil => simp [utf16_to_byte]
  | cons c p ih =>
    have h1 : 1 ≤ charUtf16 c := charUtf16_pos c
    have h2 : ∃ n, strUtf16 (c :: p) = n + 1 := ⟨strUtf16 (c :: p) - 1, by
      rw [strUtf16_cons]; omega⟩
    obtain ⟨n, hn⟩ := h2
    rw [List.cons_append, hn, utf16_to_byte]
    have hrest : n + 1 - charUtf16 c = strUtf16 p := by
      rw [strUtf16_cons] at hn; omega
    rw [hrest, ih, strBytes_cons]

/-- Taking exactly a prefix's byte count yields that prefix. -/
theorem takeBytes_exact (p q : List Char) :
    takeBytes (p ++ q) (strBytes p) = p := by
  induction p with
  | nil => simp [takeBytes]
  | cons c p ih =>
    have h1 : 1 ≤ charBytes c := charBytes_pos c
    obtain ⟨n, hn⟩ : ∃ n, strBytes (c :: p) = n + 1 :=
      ⟨strBytes (c :: p) - 1, by rw [strBytes_cons]; omega⟩
    rw [List.cons_append, hn, takeBytes]
    have hcond : charBytes c ≤ n + 1 := by rw [strBytes_cons] at hn; omega
    rw [if_pos hcond]
    have hrest : n + 1 - charBytes c = strBytes p := by
      rw [strBytes_cons] at hn; omega
    rw [hrest, ih]

/-- Dropping exactly a prefix's byte count yields the suffix. -/
theorem dropBytes_exact (p q : List Char) :
    dropBytes (p ++ q) (strBytes p) = q := by
  induction p with
  | nil => simp [dropBytes]
  | cons c p ih =>
    have h1 : 1 ≤ charBytes c := charBytes_pos c
    obtain ⟨n, hn⟩ : ∃ n, strBytes (c :: p) = n + 1 :=
      ⟨strBytes (c :: p) - 1, by rw [strBytes_cons]; omega⟩
    rw [List.cons_append, hn, dropBytes]
    have hcond : charBytes c ≤ n + 1 := by rw [strBytes_cons] at hn; omega
    rw [if_pos hcond]
    have hrest : n + 1 - charBytes c = strBytes p := by
      rw [strBytes_cons] at hn; omega
    rw [hrest, ih]

theorem splitLines_ne_nil (l : List Char) : splitLines l ≠ [] := by
  cases l with
  | nil => simp [splitLines]
  | cons c cs =>
    rw [splitLines]
    split_ifs
    · simp
    · cases splitLines cs <;> simp

/-- The line segments concatenate back to the original text. -/
theorem splitLines_flatten (l : List Char) : (splitLines l).flatten = l := by
  induction l with
  | nil => simp [splitLines]
  | cons c cs ih =>
    rw [splitLines]
    split_ifs with hc
    · simp [hc, ih]
    · cases hs : splitLines cs with
      | nil => exact absurd hs (splitLines_ne_nil cs)
      | cons s ss =>
        rw [hs] at ih
        simpa using ih

@[simp] theorem Size.add_byte (a b : Size) : (a + b).byte = a.byte + b.byte := rfl

/-- Byte geometry of the line table: the `k`-th entry spans from the byte
length of the first `k` segments to that of the first `k + 1`. -/
theorem mkLines_byte (segs : List (List Char)) (acc : Size) (k : Nat) :
    ((mkLines acc segs)[k]?).map (fun lp => (lp.1.byte, lp.2.byte)) =
      if k < segs.length then
        some (acc.byte + strBytes ((segs.take k).flatten),
              acc.byte + strBytes ((segs.take (k + 1)).flatten))
      else none := by
  induction segs generalizing acc k with
  | nil => simp [mkLines]
  | cons s ss ih =>
    cases k with
    | zero => simp [mkLines, Size.new]
    | succ k =>
      rw [mkLines]
      have := ih (acc + Size.new s) k
      simp only [List.getElem?_cons_succ, this, List.length_cons]
      by_cases hk : k < ss.length
      · rw [if_pos hk, if_pos (by omega)]
        simp [Size.new, Nat.add_assoc]
      · rw [if_neg hk, if_neg (by omega)]

theorem mkLines_length (segs : List (List Char)) (acc : Size) :
    (mkLines acc segs).length = segs.length := by
  induction segs generalizing acc with
  | nil => rfl
  | cons s ss ih => simp [mkLines, ih]

/-- What a successful `findLine` returns: an in-bounds entry of the table
satisfying the containment predicate. -/
theorem findLine_some (offset : Nat) (l : List (Size × Size)) :
    ∀ (i j : Nat) (se : Size × Size), findLine offset l i = some (j, se) →
      i ≤ j ∧ l[j - i]? = some se ∧ se.1.byte ≤ offset ∧ offset < se.2.byte := by
  induction l with
  | nil => intro i j se h; simp [findLine] at h
  | cons hd tl ih =>
    intro i j se h
    rw [findLine] at h
    split_ifs at h with hc
    · obtain ⟨h1, h2⟩ := Prod.mk.injEq .. ▸ (Option.some.injEq _ _ ▸ h)
      simp only [Bool.and_eq_true, decide_eq_true_eq] at hc
      subst h1 h2
      exact ⟨le_refl _, by simp, hc.1, hc.2⟩
    · obtain ⟨hij, hget, hcont⟩ := ih (i + 1) j se h
      refine ⟨by omega, ?_, hcont⟩
      have : j - i = (j - (i + 1)) + 1 := by omega
      rw [this]
      simpa using hget

/-- `findLine` succeeds as soon as some entry satisfies the predicate. -/
theorem findLine_isSome (offset : Nat) (l : List (Size × Size)) :
    ∀ (i k : Nat) (se : Size × Size), l[k]? = some se →
      se.1.byte ≤ offset → offset < se.2.byte →
      (findLine offset l i).isSome := by
  induction l with
  | nil => intro i k se h; simp at h
  | cons hd tl ih =>
    intro i k se h h1 h2
    rw [findLine]
    split_ifs with hc
    · simp
    · cases k with
      | zero =>
        simp only [List.getElem?_cons_zero, Option.some.injEq] at h
        subst h
        simp [h1, h2] at hc
      | succ k =>
        simp only [List.getElem?_cons_succ] at h
        exact ih (i + 1) k se h h1 h2

/-- Discrete intermediate-value search: a value below the final cumulative
sum lies in some step interval. -/
theorem exists_interval (g : Nat → Nat) (h0 : g 0 = 0) :
    ∀ (n b : Nat), b < g n → ∃ k, k < n ∧ g k ≤ b ∧ b < g (k + 1) := by
  intro n
  induction n with
  | zero => intro b hb; rw [h0] at hb; omega
  | succ n ih =>
    intro b hb
    by_cases hn : g n ≤ b
    · exact ⟨n, by omega, hn, hb⟩
    · obtain ⟨k, hk, h1, h2⟩ := ih b (by omega)
      exact ⟨k, by omega, h1, h2⟩

/-- A byte offset lying on a character boundary of the text: the byte length
of some prefix of characters. -/
def IsBoundary (l : List Char) (b : Nat) : Prop :=
  ∃ n, strBytes (l.take n) = b

/-- A character boundary falling inside a middle piece of the text is a
boundary of that piece. -/
theorem boundary_split (pre seg post : List Char) (b : Nat)
    (hb : IsBoundary (pre ++ (seg ++ post)) b)
    (h1 : strBytes pre ≤ b) (h2 : b < strBytes pre + strBytes seg) :
    ∃ j, strBytes (seg.take j) = b - strBytes pre := by
  obtain ⟨n, hn⟩ := hb
  by_cases hnp : n ≤ pre.length
  · have heq : (pre ++ (seg ++ post)).take n = pre.take n := by
      rw [List.take_append_eq_append_take]
      have h0 : n - pre.length = 0 := by omega
      simp [h0]
    rw [heq] at hn
    have hle : strBytes (pre.take n) ≤ strBytes pre := strBytes_take_le _ _
    have hbeq : b = strBytes pre := by omega
    exact ⟨0, by simp [hbeq]⟩
  · push_neg at hnp
    have htake : (pre ++ (seg ++ post)).take n =
        pre ++ (seg ++ post).take (n - pre.length) := by
      rw [List.take_append_eq_append_take, List.take_of_length_le (by omega)]
    rw [htake, strBytes_append] at hn
    by_cases hm : n - pre.length ≤ seg.length
    · have heq : (seg ++ post).take (n - pre.length) = seg.take (n - pre.length) := by
        rw [List.take_append_eq_append_take]
        have h0 : n - pre.length - seg.length = 0 := by omega
        simp [h0]
      rw [heq] at hn
      exact ⟨n - pre.length, by omega⟩
    · exfalso
      push_neg at hm
      have heq : (seg ++ post).take (n - pre.length) =
          seg ++ post.take (n - pre.length - seg.length) := by
        rw [List.take_append_eq_append_take, List.take_of_length_le (by omega)]
      rw [heq, strBytes_append] at hn
      omega

/-- C7 (amended): for every byte offset `b` on a character boundary and
STRICTLY below the text's byte length, converting to a line/UTF-16 position
and back is the identity: `to_offset (to_position b) = some b`, including
for multi-byte and non-BMP characters.  (At `b` equal to the text length —
also a valid boundary — the round trip fails, because `to_position` returns
`None` there; see the counterexample.) -/
theorem to_position_to_offset_roundtrip (text : List Char) (b : Nat)
    (hbound : IsBoundary text b) (hb : b < strBytes text) :
    ((SourceFile.new text).to_position b).bind
      ((SourceFile.new text).to_offset) = some b := by
  show (SourceFile.to_position ⟨text, mkLines Size.zero (splitLines text)⟩ b).bind
    (SourceFile.to_offset ⟨text, mkLines Size.zero (splitLines text)⟩) = some b
  have hflat : (splitLines text).flatten = text := splitLines_flatten text
  generalize hsegs : splitLines text = segs at hflat ⊢
  -- the cumulative byte count of the first k segments
  have hgN : strBytes ((segs.take segs.length).flatten) = strBytes text := by
    rw [List.take_length, hflat]
  obtain ⟨k, hk, hk1, hk2⟩ :=
    exists_interval (fun k => strBytes ((segs.take k).flatten)) (by simp)
      segs.length b
      (show b < strBytes ((segs.take segs.length).flatten) from by rw [hgN]; exact hb)
  replace hk1 : strBytes ((segs.take k).flatten) ≤ b := hk1
  replace hk2 : b < strBytes ((segs.take (k + 1)).flatten) := hk2
  -- the k-th entry of the line table contains b
  have hlineK := mkLines_byte segs Size.zero k
  rw [if_pos hk] at hlineK
  obtain ⟨sek, hsek⟩ : ∃ se, (mkLines Size.zero segs)[k]? = some se := by
    cases hx : (mkLines Size.zero segs)[k]? with
    | none => rw [hx] at hlineK; simp at hlineK
    | some se => exact ⟨se, rfl⟩
  rw [hsek] at hlineK
  simp only [Option.map_some', Option.some.injEq, Prod.mk.injEq, Size.zero,
    Nat.zero_add] at hlineK
  -- findLine succeeds
  have hsome := findLine_isSome b (mkLines Size.zero segs) 0 k sek hsek
    (by rw [hlineK.1]; simpa using hk1) (by rw [hlineK.2]; simpa using hk2)
  obtain ⟨⟨j, sj⟩, hfind⟩ := Option.isSome_iff_exists.mp hsome
  obtain ⟨-, hgetj, hjb1, hjb2⟩ := findLine_some b (mkLines Size.zero segs) 0 j sj hfind
  simp only [Nat.sub_zero] at hgetj
  -- evaluate to_position
  obtain ⟨s1, s2⟩ := sj
  simp only at hjb1 hjb2
  -- index bound and byte geometry of line j
  have hjlen : j < segs.length := by
    have h := List.getElem?_eq_some.mp hgetj
    obtain ⟨hlt, -⟩ := h
    rwa [mkLines_length] at hlt
  have hlineJ := mkLines_byte segs Size.zero j
  rw [if_pos hjlen, hgetj] at hlineJ
  simp only [Option.map_some', Option.some.injEq, Prod.mk.injEq, Size.zero,
    Nat.zero_add] at hlineJ
  obtain ⟨segj, hsegj⟩ : ∃ sg, segs[j]? = some sg :=
    ⟨segs[j], (List.getElem?_eq_getElem hjlen)⟩
  have htakeSucc : (segs.take (j + 1)).flatten = (segs.take j).flatten ++ segj := by
    rw [List.take_succ, hsegj]
    simp
  have hs1 : s1.byte = strBytes ((segs.take j).flatten) := by simpa using hlineJ.1
  have hs2 : s2.byte = strBytes ((segs.take j).flatten) + strBytes segj := by
    have := hlineJ.2
    rw [htakeSucc, strBytes_append] at this
    simpa using this
  have htext : text = (segs.take j).flatten ++ (segj ++ (segs.drop (j + 1)).flatten) := by
    conv_lhs => rw [← hflat, ← List.take_append_drop j segs]
    rw [List.flatten_append]
    congr 1
    rw [List.drop_eq_getElem_cons hjlen]
    have hjval : segs[j] = segj := by
      have h2 := List.getElem?_eq_getElem hjlen
      rw [hsegj] at h2
      exact (Option.some.injEq _ _).mp h2.symm
    rw [hjval]
    simp
  have hdrop : dropBytes text s1.byte = segj ++ (segs.drop (j + 1)).flatten := by
    rw [hs1]
    conv_lhs => rw [htext]
    exact dropBytes_exact _ _
  have hslice_line : sliceBytes text s1.byte s2.byte = segj := by
    unfold sliceBytes
    rw [hdrop]
    have hd : s2.byte - s1.byte = strBytes segj := by omega
    rw [hd]
    exact takeBytes_exact _ _
  obtain ⟨jj, hjj⟩ := boundary_split ((segs.take j).flatten) segj
    ((segs.drop (j + 1)).flatten) b (htext ▸ hbound) (by omega) (by omega)
  have hslice_b : sliceBytes text s1.byte b = segj.take jj := by
    unfold sliceBytes
    rw [hdrop]
    have hd : b - s1.byte = strBytes (segj.take jj) := by omega
    rw [hd]
    conv_lhs =>
      rw [show segj ++ (segs.drop (j + 1)).flatten =
          segj.take jj ++ (segj.drop jj ++ (segs.drop (j + 1)).flatten) by
        rw [← List.append_assoc, List.take_append_drop]]
    exact takeBytes_exact _ _
  -- evaluate the two conversions
  rw [SourceFile.to_position]
  simp only
  rw [if_neg (by omega), if_neg (by omega), hfind]
  simp only [Option.some_bind]
  rw [SourceFile.to_offset]
  simp only
  rw [hgetj]
  simp only [Option.some.injEq]
  rw [hslice_line, hslice_b]
  have hfinal : utf16_to_byte segj (strUtf16 (segj.take jj)) = strBytes (segj.take jj) := by
    have h := utf16_to_byte_prefix (segj.take jj) (segj.drop jj)
    rwa [List.take_append_drop] at h
  rw [hfinal]
  omega

/-- Witness for the round trip on a buffer with a 3-byte character and a
non-BMP (surrogate-pair) character: byte 4 sits after `'a'` and the
triangle. -/
theorem to_position_to_offset_roundtrip_witness :
    ((SourceFile.new "a▲b😀c".toList).to_position 4).bind
      ((SourceFile.new "a▲b😀c".toList).to_offset) = some 4 :=
  to_position_to_offset_roundtrip "a▲b😀c".toList 4 ⟨2, by decide⟩ (by decide)

/-- C7 (counterexample): the byte offset equal to the text length is a valid
character boundary of the buffer, but the round trip fails there:
`to_position` returns `none` (see C3), so `byteOffsetOf(positionOf(b))`
cannot give back `b`. -/
theorem roundtrip_fails_at_text_len :
    IsBoundary "a".toList 1 ∧ strBytes "a".toList = 1 ∧
    ((SourceFile.new "a".toList).to_position 1).bind
      ((SourceFile.new "a".toList).to_offset) = none :=
  ⟨⟨1, by decide⟩, by decide, by decide⟩

/-! ## Idempotence of `optimize` -/

/-- Whether the `optimize` loop would merge segment `old` into the preceding
segment `last` (the two concatenation arms of the source's match). -/
def canMerge : Annot → Annot → Bool
  | .text _, .text _ => true
  | .markup _ li, .markup _ i => li.isEmpty && i.isEmpty
  | _, _ => false

/-- Whether the `optimize` loop would drop `a` as leading whitespace when the
rebuilt list is still empty. -/
def droppable : Annot → Bool
  | .text t => blank t
  | .markup _ i => blank i

/-- The trailing-trim loop leaves `a` untouched: its trimmed content is
already trimmed and nonempty. -/
def fixedA : Annot → Prop
  | .text t => trimEnd t = t ∧ t ≠ []
  | .markup _ i => trimEnd i = i ∧ i ≠ []

theorem canMerge_text_congr (x : Annot) (t1 t2 : List Char) :
    canMerge x (.text t1) = canMerge x (.text t2) := by
  cases x <;> rfl

theorem canMerge_markup_congr (x : Annot) (m1 m2 i : List Char) :
    canMerge x (.markup m1 i) = canMerge x (.markup m2 i) := by
  cases x <;> rfl

theorem blank_append_left (a b : List Char) (h : blank (a ++ b) = true) :
    blank a = true := by
  simp only [blank, List.all_append, Bool.and_eq_true] at h
  exact h.1

@[simp] theorem blank_nil : blank [] = true := rfl

theorem trimEnd_idem (t : List Char) : trimEnd (trimEnd t) = trimEnd t := by
  unfold trimEnd
  rw [List.reverse_reverse]
  cases h : t.reverse.dropWhile isWs with
  | nil => simp
  | cons x xs =>
    have hx : isWs x = false := by
      have := List.head?_dropWhile_not isWs t.reverse
      rw [h] at this
      simpa using this
    rw [List.dropWhile_cons, hx]
    simp

theorem trimEnd_not_blank (t : List Char) (h : trimEnd t ≠ []) :
    blank (trimEnd t) = false := by
  unfold trimEnd at h ⊢
  cases hd : t.reverse.dropWhile isWs with
  | nil => rw [hd] at h; simp at h
  | cons x xs =>
    have hx : isWs x = false := by
      have := List.head?_dropWhile_not isWs t.reverse
      rw [hd] at this
      simpa using this
    simp only [blank, List.all_reverse, List.all_cons, hx, Bool.false_and]

/-- Once the rebuilt list is nonempty and no adjacent pair can merge, the
`optimize` loop only pushes: it reverses the remaining input on top. -/
theorem optGo_push (olds : List Annot) :
    ∀ (a : Annot) (acc : List Annot) (off : Nat),
      List.Chain' (fun u v => canMerge u v = false) (a :: olds) →
      optGo olds (a :: acc) off = (olds.reverse ++ (a :: acc), off) := by
  induction olds with
  | nil => intro a acc off _; cases a <;> simp [optGo]
  | cons o os ih =>
    intro a acc off h
    rw [List.chain'_cons] at h
    obtain ⟨hao, hrest⟩ := h
    have step : optGo (o :: os) (a :: acc) off = optGo os (o :: a :: acc) off := by
      cases o with
      | text t =>
        cases a with
        | text lt => simp [canMerge] at hao
        | markup lm li => simp [optGo]
      | markup m i =>
        cases a with
        | text lt => simp [optGo]
        | markup lm li =>
          have hg : (i.isEmpty && li.isEmpty) = false := by
            simp only [canMerge] at hao
            rw [Bool.and_comm]
            exact hao
          simp [optGo, hg]
    rw [step, ih o (a :: acc) off hrest]
    simp

/-- Invariant of the `optimize` loop on its reversed accumulator: no
adjacent pair (in payload order) can merge, and the first kept segment (the
accumulator's last) is not leading whitespace. -/
theorem optGo_inv (olds : List Annot) :
    ∀ (acc : List Annot) (off : Nat),
      List.Chain' (fun u v => canMerge v u = false) acc →
      (∀ a, acc.getLast? = some a → droppable a = false) →
      List.Chain' (fun u v => canMerge v u = false) (optGo olds acc off).1 ∧
      (∀ a, (optGo olds acc off).1.getLast? = some a → droppable a = false) := by
  induction olds with
  | nil => intro acc off h1 h2; exact ⟨h1, h2⟩
  | cons o os ih =>
    intro acc off h1 h2
    cases o with
    | text t =>
      cases acc with
      | nil =>
        by_cases hb : blank t
        · rw [show optGo (.text t :: os) [] off = optGo os [] (off + strBytes t) by
            simp [optGo, hb]]
          exact ih [] _ List.chain'_nil (by intro a h; simp at h)
        · rw [show optGo (.text t :: os) [] off = optGo os [.text t] off by
            simp [optGo, hb]]
          refine ih [.text t] off (List.chain'_singleton _) ?_
          intro a h
          simp only [List.getLast?_singleton, Option.some.injEq] at h
          subst h
          simpa [droppable] using hb
      | cons x acc' =>
        cases x with
        | text lt =>
          rw [show optGo (.text t :: os) (.text lt :: acc') off =
              optGo os (.text (lt ++ t) :: acc') off by simp [optGo]]
          refine ih _ off ?_ ?_
          · rw [List.chain'_cons'] at h1 ⊢
            refine ⟨fun y hy => ?_, h1.2⟩
            rw [canMerge_text_congr y (lt ++ t) lt]
            exact h1.1 y hy
          · intro a h
            cases acc' with
            | nil =>
              simp only [List.getLast?_singleton, Option.some.injEq] at h
              subst h
              have hlt : droppable (Annot.text lt) = false := h2 _ rfl
              simp only [droppable] at hlt ⊢
              cases hcon : blank (lt ++ t) with
              | false => rfl
              | true => rw [blank_append_left lt t hcon] at hlt; cases hlt
            | cons z zs =>
              rw [List.getLast?_cons_cons] at h
              exact h2 a (by rwa [List.getLast?_cons_cons])
        | markup lm li =>
          rw [show optGo (.text t :: os) (.markup lm li :: acc') off =
              optGo os (.text t :: .markup lm li :: acc') off by simp [optGo]]
          refine ih _ off ?_ ?_
          · rw [List.chain'_cons]
            exact ⟨rfl, h1⟩
          · intro a h
            rw [List.getLast?_cons_cons] at h
            exact h2 a h
    | markup m i =>
      cases acc with
      | nil =>
        by_cases hb : blank i
        · rw [show optGo (.markup m i :: os) [] off = optGo os [] (off + strBytes m) by
            simp [optGo, hb]]
          exact ih [] _ List.chain'_nil (by intro a h; simp at h)
        · rw [show optGo (.markup m i :: os) [] off = optGo os [.markup m i] off by
            simp [optGo, hb]]
          refine ih [.markup m i] off (List.chain'_singleton _) ?_
          intro a h
          simp only [List.getLast?_singleton, Option.some.injEq] at h
          subst h
          simpa [droppable] using hb
      | cons x acc' =>
        cases x with
        | text lt =>
          rw [show optGo (.markup m i :: os) (.text lt :: acc') off =
              optGo os (.markup m i :: .text lt :: acc') off by simp [optGo]]
          refine ih _ off ?_ ?_
          · rw [List.chain'_cons]
            exact ⟨rfl, h1⟩
          · intro a h
            rw [List.getLast?_cons_cons] at h
            exact h2 a h
        | markup lm li =>
          by_cases hg : (i.isEmpty && li.isEmpty) = true
          · rw [show optGo (.markup m i :: os) (.markup lm li :: acc') off =
                optGo os (.markup (lm ++ m) li :: acc') off by simp [optGo, hg]]
            refine ih _ off ?_ ?_
            · rw [List.chain'_cons'] at h1 ⊢
              refine ⟨fun y hy => ?_, h1.2⟩
              rw [canMerge_markup_congr y (lm ++ m) lm li]
              exact h1.1 y hy
            · intro a h
              cases acc' with
              | nil =>
                exfalso
                have hlast : droppable (Annot.markup lm li) = false := h2 _ rfl
                have hli : li = [] := by
                  simp only [Bool.and_eq_true, List.isEmpty_iff] at hg
                  exact hg.2
                rw [hli] at hlast
                simp [droppable] at hlast
              | cons z zs =>
                rw [List.getLast?_cons_cons] at h
                exact h2 a (by rwa [List.getLast?_cons_cons])
          · rw [show optGo (.markup m i :: os) (.markup lm li :: acc') off =
                optGo os (.markup m i :: .markup lm li :: acc') off by
              simp [optGo, hg]]
            refine ih _ off ?_ ?_
            · rw [List.chain'_cons]
              refine ⟨?_, h1⟩
              simp only [canMerge]
              rw [Bool.and_comm]
              exact Bool.not_eq_true _ ▸ (by simpa using hg)
            · intro a h
              rw [List.getLast?_cons_cons] at h
              exact h2 a h

theorem invLast_tail (x : Annot) (rest : List Annot)
    (h2 : ∀ a, (x :: rest).getLast? = some a → droppable a = false) :
    ∀ a, rest.getLast? = some a → droppable a = false := by
  intro a h
  cases rest with
  | nil => simp at h
  | cons z zs => exact h2 a (by rwa [List.getLast?_cons_cons])

/-- The trailing-trim loop preserves the loop invariant and in addition
leaves a head (the payload's last segment) whose content is trimmed and
nonempty. -/
theorem trimEndAnnots_inv (acc : List Annot)
    (h1 : List.Chain' (fun u v => canMerge v u = false) acc)
    (h2 : ∀ a, acc.getLast? = some a → droppable a = false) :
    List.Chain' (fun u v => canMerge v u = false) (trimEndAnnots acc) ∧
    (∀ a, (trimEndAnnots acc).getLast? = some a → droppable a = false) ∧
    (∀ a, (trimEndAnnots acc).head? = some a → fixedA a) := by
  induction acc with
  | nil =>
    exact ⟨List.chain'_nil, by intro a h; simp [trimEndAnnots] at h,
      by intro a h; simp [trimEndAnnots] at h⟩
  | cons x rest ih =>
    cases x with
    | text t =>
      cases hb : (trimEnd t).isEmpty with
      | true =>
        rw [show trimEndAnnots (.text t :: rest) = trimEndAnnots rest by
          simp [trimEndAnnots, hb]]
        exact ih (List.Chain'.tail h1) (invLast_tail _ _ h2)
      | false =>
        have hne : trimEnd t ≠ [] := by simpa [List.isEmpty_iff] using hb
        rw [show trimEndAnnots (.text t :: rest) = .text (trimEnd t) :: rest by
          simp [trimEndAnnots, hb]]
        refine ⟨?_, ?_, ?_⟩
        · rw [List.chain'_cons'] at h1 ⊢
          refine ⟨fun y hy => ?_, h1.2⟩
          rw [canMerge_text_congr y (trimEnd t) t]
          exact h1.1 y hy
        · intro a h
          cases rest with
          | nil =>
            simp only [List.getLast?_singleton, Option.some.injEq] at h
            subst h
            simpa [droppable] using trimEnd_not_blank t hne
          | cons z zs =>
            rw [List.getLast?_cons_cons] at h
            exact h2 a (by rwa [List.getLast?_cons_cons])
        · intro a h
          simp only [List.head?_cons, Option.some.injEq] at h
          subst h
          exact ⟨trimEnd_idem t, hne⟩
    | markup m i =>
      cases hb : (trimEnd i).isEmpty with
      | true =>
        rw [show trimEndAnnots (.markup m i :: rest) = trimEndAnnots rest by
          simp [trimEndAnnots, hb]]
        exact ih (List.Chain'.tail h1) (invLast_tail _ _ h2)
      | false =>
        have hne : trimEnd i ≠ [] := by simpa [List.isEmpty_iff] using hb
        rw [show trimEndAnnots (.markup m i :: rest) = .markup m (trimEnd i) :: rest by
          simp [trimEndAnnots, hb]]
        refine ⟨?_, ?_, ?_⟩
        · rw [List.chain'_cons'] at h1 ⊢
          refine ⟨fun y hy => ?_, h1.2⟩
          have hcongr : ∀ z : Annot, canMerge z (.markup m (trimEnd i)) = false := by
            intro z
            cases z with
            | text _ => rfl
            | markup _ zi =>
              simp only [canMerge, List.isEmpty_iff, Bool.and_eq_false_iff]
              right
              simpa [List.isEmpty_iff] using hb
          exact hcongr y
        · intro a h
          cases rest with
          | nil =>
            simp only [List.getLast?_singleton, Option.some.injEq] at h
            subst h
            simpa [droppable] using trimEnd_not_blank i hne
          | cons z zs =>
            rw [List.getLast?_cons_cons] at h
            exact h2 a (by rwa [List.getLast?_cons_cons])
        · intro a h
          simp only [List.head?_cons, Option.some.injEq] at h
          subst h
          exact ⟨trimEnd_idem i, hne⟩

/-- The trailing-trim loop is the identity when the last segment is already
trimmed and nonempty. -/
theorem trimEndAnnots_fixed (acc : List Annot)
    (h : ∀ a, acc.head? = some a → fixedA a) : trimEndAnnots acc = acc := by
  cases acc with
  | nil => rfl
  | cons x rest =>
    cases x with
    | text t =>
      obtain ⟨hfix, hne⟩ := h (.text t) rfl
      have hb : (trimEnd t).isEmpty = false := by
        rw [hfix]
        simpa [List.isEmpty_iff] using hne
      rw [show trimEndAnnots (.text t :: rest) = .text (trimEnd t) :: rest by
        simp [trimEndAnnots, hb], hfix]
    | markup m i =>
      obtain ⟨hfix, hne⟩ := h (.markup m i) rfl
      have hb : (trimEnd i).isEmpty = false := by
        rw [hfix]
        simpa [List.isEmpty_iff] using hne
      rw [show trimEndAnnots (.markup m i :: rest) = .markup m (trimEnd i) :: rest by
        simp [trimEndAnnots, hb], hfix]

/-- C8: `optimize` is idempotent — running it a second time immediately
after a first run leaves the segment sequence unchanged and returns 0 as
the trimmed-leading-byte offset. -/
theorem optimize_idem (a : AnnotatedText) :
    optimize (optimize a).1 = ((optimize a).1, 0) := by
  obtain ⟨chain1, last1⟩ :=
    optGo_inv a.annots [] 0 List.chain'_nil (by intro x h; simp at h)
  obtain ⟨chainT, lastT, headT⟩ :=
    trimEndAnnots_inv (optGo a.annots [] 0).1 chain1 last1
  have hopt1 : (optimize a).1 =
      ⟨(trimEndAnnots (optGo a.annots [] 0).1).reverse⟩ := rfl
  rw [hopt1]
  have hchainRev : List.Chain'
      (fun u v => canMerge u v = false)
      (trimEndAnnots (optGo a.annots [] 0).1).reverse := by
    rw [List.chain'_reverse]
    exact chainT
  cases hL : (trimEndAnnots (optGo a.annots [] 0).1).reverse with
  | nil => rfl
  | cons f ls =>
    have hfLast : (trimEndAnnots (optGo a.annots [] 0).1).getLast? = some f := by
      rw [← List.head?_reverse, hL]
      rfl
    have hfdrop : droppable f = false := lastT f hfLast
    rw [hL] at hchainRev
    have hTeq : trimEndAnnots (optGo a.annots [] 0).1 = ls.reverse ++ [f] := by
      have hrr := congrArg List.reverse hL
      rwa [List.reverse_reverse, List.reverse_cons] at hrr
    have hgo2 : optGo (f :: ls) [] 0 = (ls.reverse ++ [f], 0) := by
      have hstep : optGo (f :: ls) [] 0 = optGo ls [f] 0 := by
        cases f with
        | text t =>
          have hbt : blank t = false := by simpa [droppable] using hfdrop
          simp [optGo, hbt]
        | markup m i =>
          have hbi : blank i = false := by simpa [droppable] using hfdrop
          simp [optGo, hbi]
      rw [hstep, optGo_push ls f [] 0 hchainRev]
    show (⟨(trimEndAnnots (optGo (f :: ls) [] 0).1).reverse⟩,
        (optGo (f :: ls) [] 0).2) = ((⟨f :: ls⟩ : AnnotatedText), (0 : Nat))
    rw [hgo2]
    have hfixed : trimEndAnnots (ls.reverse ++ [f]) = ls.reverse ++ [f] := by
      apply trimEndAnnots_fixed
      intro x hx
      apply headT
      rw [hTeq]
      exact hx
    simp only [hfixed]
    rw [List.reverse_append]
    simp
